import Mathlib

/-!
Verification of `scripts/harvest-skill-metadata/harvest.py`.

The Python source is shallowly embedded below.  Strings are modelled by
Lean `String` (logically a list of `Char`), Python ordered dictionaries by
association lists `List (String × String)` with first-insertion ordering,
`None`-able values by `Option`, and the float similarity ratio of
`difflib.SequenceMatcher` by a rational number.  Only the ASCII fragment of
the Python text functions is modelled (`str.lower`, `str.isalnum`,
whitespace), which covers all inputs appearing in the development.
-/

namespace Harvest

/-- Characters removed by Python `str.strip()` with no argument
(the ASCII whitespace set). -/
def pyWs : List Char := [' ', '\t', '\n', '\r', '\x0b', '\x0c']

/-- Python `str.lstrip(cs)` on a character list. -/
def lstripSet (cs : List Char) (l : List Char) : List Char :=
  l.dropWhile (fun c => cs.contains c)

/-- Python `str.rstrip(cs)` on a character list. -/
def rstripSet (cs : List Char) (l : List Char) : List Char :=
  (lstripSet cs l.reverse).reverse

/-- Python `str.strip(cs)` on a character list. -/
def stripSet (cs : List Char) (l : List Char) : List Char :=
  rstripSet cs (lstripSet cs l)

/-- Python `str.strip()` (no argument: whitespace). -/
def pyStrip (s : String) : String := ⟨stripSet pyWs s.data⟩

/-- The apostrophe character, U+0027. -/
def apCh : Char := '\x27'

/-- The apostrophe as a one-character string. -/
def apS : String := ⟨[apCh]⟩

/-- The backtick character, U+0060. -/
def btCh : Char := '\x60'

/-- Python `str.lower()` (ASCII fragment). -/
def pyLower (s : String) : String := ⟨s.data.map Char.toLower⟩

/-- Python `str.startswith(p)`. -/
def strStarts (s p : String) : Bool := p.data.isPrefixOf s.data

/-- Python `str.endswith(p)`. -/
def strEnds (s p : String) : Bool := p.data.reverse.isPrefixOf s.data.reverse

/-- Python `pat in s` (substring test). -/
def containsSub (s pat : String) : Bool :=
  (List.range (s.data.length + 1)).any (fun i => pat.data.isPrefixOf (s.data.drop i))

/-- Split a character list at every character satisfying `p`; the separators
are dropped and empty pieces are kept, as in Python `str.split(sep)` for a
one-character `sep`. -/
def splitOnP (p : Char → Bool) : List Char → List (List Char)
  | [] => [[]]
  | c :: rest =>
    if p c then [] :: splitOnP p rest
    else
      match splitOnP p rest with
      | s :: ss => (c :: s) :: ss
      | [] => [[c]]

/-- Python `str.split('\n')`. -/
def pyLines (s : String) : List String :=
  (splitOnP (fun c => c == '\n') s.data).map (fun l => ⟨l⟩)

/-- Python `str.splitlines()` restricted to `'\n'` terminators: like
splitting on `'\n'` but without a final empty piece. -/
def pySplitlines (s : String) : List String :=
  let parts := splitOnP (fun c => c == '\n') s.data
  (if parts.getLast? = some [] then parts.dropLast else parts).map (fun l => ⟨l⟩)

/-- Python `str.split()` with no argument: split on whitespace runs,
dropping empty pieces. -/
def pyWords (l : List Char) : List (List Char) :=
  (splitOnP (fun c => pyWs.contains c) l).filter (fun w => w ≠ [])

/-- Fuel-driven worker for Python `str.split(pat)` with a nonempty `pat`;
the fuel is instantiated with the length of the subject, which bounds the
number of recursion steps. -/
def pySplitAux (pat : List Char) : Nat → List Char → List (List Char)
  | _, [] => [[]]
  | 0, l => [l]
  | fuel + 1, c :: rest =>
    if pat.isPrefixOf (c :: rest) then
      [] :: pySplitAux pat fuel ((c :: rest).drop pat.length)
    else
      match pySplitAux pat fuel rest with
      | s :: ss => (c :: s) :: ss
      | [] => [[c]]

/-- Python `s.split(pat)` for nonempty `pat`. -/
def pySplit (s pat : String) : List String :=
  (pySplitAux pat.data s.data.length s.data).map (fun l => ⟨l⟩)

/-- Python `l[-1]` on a nonempty list of strings. -/
def pyLast (l : List String) : String := l.getLast?.getD ""

/-- Fuel-driven worker for Python `str.replace(pat, rep)` with a nonempty
`pat`; the fuel is instantiated with the length of the subject. -/
def replaceAux (pat rep : List Char) : Nat → List Char → List Char
  | _, [] => []
  | 0, l => l
  | fuel + 1, c :: rest =>
    if pat.isPrefixOf (c :: rest) then
      rep ++ replaceAux pat rep fuel ((c :: rest).drop pat.length)
    else
      c :: replaceAux pat rep fuel rest

/-- Python `s.replace(pat, rep)` for nonempty `pat`. -/
def pyReplace (s pat rep : String) : String :=
  ⟨replaceAux pat.data rep.data s.data.length s.data⟩

/-- Truthiness of a Python optional string: `None` and `''` are falsy. -/
def pyTruthyS (o : Option String) : Bool :=
  match o with
  | none => false
  | some s => s != ""

/-!
## difflib.SequenceMatcher

`compare` in harvest.py is `SequenceMatcher(a=a.lower(), b=b.lower()).ratio()`.
The matcher is used with `isjunk = None`; the `autojunk` heuristic (which
only fires when `len(b) ≥ 200`) is not modelled, so the embedding is exact
for second arguments shorter than 200 characters, which covers every call
in harvest.py.  With an empty junk set the two "extend the match" loops of
`find_longest_match` can never extend the maximal block found by the main
dynamic-programming loop, so they are omitted.
-/

/-- One row of `find_longest_match`'s length table: `newRow a b i blo bhi
prev j` is Python's `newj2len[j]` while scanning row `i`, where `prev` is
the previous row (`j2len`). -/
def newRow (a b : List Char) (i blo bhi : Nat) (prev : Nat → Nat) : Nat → Nat :=
  fun j =>
    if blo ≤ j ∧ j < bhi ∧ b.get? j = a.get? i then
      (if j = 0 then 0 else prev (j - 1)) + 1
    else 0

/-- The positions `j ∈ [blo, bhi)` with `b[j] == a[i]`, in increasing
order: the values Python draws from `b2j` (restricted by the
`continue`/`break` guards) when scanning row `i`. -/
def bMatches (a b : List Char) (i blo bhi : Nat) : List Nat :=
  (List.range bhi).filter (fun j => decide (blo ≤ j) && decide (b.get? j = a.get? i))

/-- Fold updating Python's `(besti, bestj, bestsize)` over one row `i`:
the best triple is replaced whenever a strictly longer diagonal run `k j`
is found. -/
def rowFold (i : Nat) (k : Nat → Nat) (js : List Nat) (best : Nat × Nat × Nat) :
    Nat × Nat × Nat :=
  js.foldl (fun b j => if b.2.2 < k j then (i + 1 - k j, j + 1 - k j, k j) else b) best

/-- Main loop of `find_longest_match`: scan the listed rows, carrying the
previous length row and the best block so far. -/
def flmAux (a b : List Char) (blo bhi : Nat) :
    List Nat → (Nat → Nat) → Nat × Nat × Nat → Nat × Nat × Nat
  | [], _, best => best
  | i :: rest, prev, best =>
    let k := newRow a b i blo bhi prev
    flmAux a b blo bhi rest k (rowFold i k (bMatches a b i blo bhi) best)

/-- `SequenceMatcher.find_longest_match(alo, ahi, blo, bhi)` (junk-free). -/
def flm (a b : List Char) (alo ahi blo bhi : Nat) : Nat × Nat × Nat :=
  flmAux a b blo bhi (List.range' alo (ahi - alo)) (fun _ => 0) (alo, blo, 0)

/-- Total size of the matching blocks of `a[alo:ahi]` against `b[blo:bhi]`,
by the `get_matching_blocks` divide-and-conquer; `fuel` bounds the
recursion depth (each recursive call works on a strictly shorter slice of
`a`, so `ahi - alo + 1` steps always suffice). -/
def mbSum (a b : List Char) : Nat → Nat → Nat → Nat → Nat → Nat
  | 0, _, _, _, _ => 0
  | fuel + 1, alo, ahi, blo, bhi =>
    let m := flm a b alo ahi blo bhi
    if m.2.2 = 0 then 0
    else
      mbSum a b fuel alo m.1 blo m.2.1 + m.2.2 +
        mbSum a b fuel (m.1 + m.2.2) ahi (m.2.1 + m.2.2) bhi

/-- Total matched characters of `a` against `b`. -/
def totalMatches (a b : List Char) : Nat :=
  mbSum a b (a.length + 1) 0 a.length 0 b.length

/-- `SequenceMatcher.ratio()`: `2.0 * M / T`, and `1.0` when both sequences
are empty. -/
def ratioOf (a b : List Char) : ℚ :=
  if a.length + b.length = 0 then 1
  else (2 * totalMatches a b : ℚ) / (a.length + b.length)

/-!
## harvest.py: README parsing and formatting
-/

/-- If the (whitespace-stripped) line is a markdown heading (`# ` or
`## `), return the heading text `line.strip('# ')`; otherwise `none`.
Mirrors the branch condition of `extract_sections`. -/
def headingOf (line : String) : Option String :=
  let l := pyStrip line
  if strStarts l "# " || strStarts l "## " then some ⟨stripSet ['#', ' '] l.data⟩
  else none

/-- `OrderedDict` assignment `sections[k] = ''`: reset the value if the key
exists (keeping its position), otherwise append the new entry. -/
def odInsertReset (m : List (String × String)) (k : String) : List (String × String) :=
  if m.any (fun p => p.1 == k) then
    m.map (fun p => if p.1 == k then (p.1, "") else p)
  else m ++ [(k, "")]

/-- `OrderedDict` update `sections[k] += s` (the key is always present at
the call sites). -/
def odAppend (m : List (String × String)) (k s : String) : List (String × String) :=
  m.map (fun p => if p.1 == k then (p.1, p.2 ++ s) else p)

/-- Line loop of `extract_sections`: heading lines open (or reset) a
section, other lines are appended (stripped, with a `'\n'` prefix) to the
current section. -/
def extractLoop : List String → String → List (String × String) → List (String × String)
  | [], _, m => m
  | line :: rest, last, m =>
    match headingOf line with
    | some k => extractLoop rest k (odInsertReset m k)
    | none => extractLoop rest last (odAppend m last ("\n" ++ pyStrip line))

/-- `extract_sections(readme_content)`: split a README into an ordered map
from heading to body; bodies are stripped at the end and the empty-heading
preamble entry is moved to the end (`sections[''] = sections.pop('')`). -/
def extract_sections (readme_content : String) : List (String × String) :=
  let m := extractLoop (pyLines readme_content) "" [("", "")]
  let m := m.map (fun p => (p.1, pyStrip p.2))
  m.filter (fun p => p.1 != "") ++ m.filter (fun p => p.1 == "")

/-- `compare(a, b)`: similarity ratio of the lowercased strings. -/
def compare (a b : String) : ℚ :=
  ratioOf (pyLower a).data (pyLower b).data

/-- One comparison step of Python `max(..., key=lambda x: x[1])`: the
current maximum is replaced only on strict improvement of the key. -/
def pymaxStep {α : Type} (m y : α × ℚ) : α × ℚ :=
  if m.2 < y.2 then y else m

/-- Python `max(l, key=lambda x: x[1])`: strict improvement only, so the
first maximum wins; `none` on the empty list (where Python raises). -/
def pymax {α : Type} (l : List (α × ℚ)) : Option (α × ℚ) :=
  match l with
  | [] => none
  | x :: xs => some (xs.foldl pymaxStep x)

/-- `find_section(name, sections, min_conf)`: fuzzy lookup of a section by
heading.  The entry whose key scores highest against `name` is selected
(first maximum wins) and its body returned when the score reaches
`min_conf`. -/
def find_section (name : String) (sections : List (String × String)) (min_conf : ℚ) :
    Option String :=
  match pymax (sections.map (fun p => (p, compare p.1 name))) with
  | none => none
  | some (p, conf) => if conf < min_conf then none else some p.2

/-- `caps(s)`: capitalize the first letter without lowercasing the rest. -/
def caps (s : String) : String :=
  match s.data with
  | [] => ""
  | c :: rest => ⟨Char.toUpper c :: rest⟩

/-- `format_sentence(s)`: capitalize, and append a period when the last
character is alphanumeric. -/
def format_sentence (s : String) : String :=
  match (caps s).data.getLast? with
  | some c => if c.isAlphanum then caps s ++ "." else caps s
  | none => caps s

/-- The wake-word spellings removed at the front of an example. -/
def wakeWords : List String := ["hey mycroft", "mycroft", "hey-mycroft"]

/-- The `for prefix in [...]` loop of `parse_example`: each spelling that
the lowercased text starts with is cut off. -/
def dropWake (l : List Char) : List Char :=
  wakeWords.foldl
    (fun e p => if strStarts ⟨e.map Char.toLower⟩ p then e.drop p.data.length else e) l

/-- The interrogative words tested by `parse_example`. -/
def questionWords : List String := ["who", "what", "when", "where"]

/-- The contraction suffixes as they appear in the Python source: the list
literal `["'s", "s", "", "'d", "d" "'re", "re"]` lacks a comma between
`"d"` and `"'re"`, so those two adjacent literals concatenate. -/
def questionSuffixes : List String :=
  [apS ++ "s", "s", "", apS ++ "d", "d" ++ apS ++ "re", "re"]

/-- The `any(...)` condition of `parse_example`. -/
def isInterrogative (l : List Char) : Bool :=
  questionWords.any (fun w =>
    questionSuffixes.any (fun suf => strStarts ⟨l.map Char.toLower⟩ (w ++ suf ++ " ")))

/-- `parse_example(example)`: strip quoting, cut at the first quote or
backtick, remove a wake-word and the following comma/space, normalize a
question's trailing punctuation to `?`, and sentence-format. -/
def parse_example (ex : String) : String :=
  let e := stripSet [' ', '\n', '"', apCh, btCh] ex.data
  let e := e.takeWhile (fun c => !(c == '"' || c == btCh))
  let e := dropWake e
  let e := stripSet [' ', ','] e
  let e := if isInterrogative e then rstripSet ['?', '.'] e ++ ['?'] else e
  format_sentence ⟨e⟩

/-- `find_title_info(sections, skill_name)`: the title comes from the
first heading containing `<img`, keeping the text after the closing `/>`;
without such a heading the first heading is the title and the short
description is empty.  (The `skill_name` argument is unused in the
source as well.) -/
def find_title_info (sections : List (String × String)) (_skillName : String) :
    String × String :=
  match sections.find? (fun p => containsSub p.1 "<img") with
  | some p => (pyStrip (pyLast (pySplit p.1 "/>")), p.2)
  | none =>
    match sections.head? with
    | some p => (p.1, "")
    | none => ("", "")

/-- The `prev`-tracking loop of `find_icon` over the pieces of the heading
split at apostrophes: a piece following one that ends in `src=` becomes the
url, a piece following one that ends in `card_color=` becomes the color. -/
def scanParts : List String → String → Option String × Option String →
    Option String × Option String
  | [], _, uc => uc
  | part :: rest, prev, uc =>
    let p := pyStrip part
    scanParts rest p
      (if strEnds prev "src=" then (some p, uc.2)
       else if strEnds prev "card_color=" then (uc.1, some p)
       else uc)

/-- The Font-Awesome preview prurl tested by `find_icon`. -/
def faPre : String := "https://rawgithub.com/FortAwesome/Font-Awesome"

/-- Last path component of a url, cut before its first dot: Python
`url.split('/')[-1].split('.')[0]`. -/
def faName (l : List Char) : List Char :=
  ((l.reverse.takeWhile (fun c => c != '/')).reverse).takeWhile (fun c => c != '.')

/-- Scheme characters allowed by `urllib.parse`. -/
def isSchemeChar (c : Char) : Bool :=
  c.isAlphanum || c == '+' || c == '-' || c == '.'

/-- Remove a leading `scheme:` as `urllib.parse.urlsplit` does. -/
def splitScheme (l : List Char) : List Char :=
  let pre := l.takeWhile (fun c => c != ':')
  if pre.length < l.length &&
      (match pre with
       | c :: rest => c.isAlpha && rest.all isSchemeChar
       | [] => false) then
    l.drop (pre.length + 1)
  else l

/-- The `netloc` component of `urllib.parse.urlparse`: present only after
a `//` following the optional scheme, up to the next `/`, `?` or `#`. -/
def netlocOf (l : List Char) : List Char :=
  let r := splitScheme l
  if ("//".data).isPrefixOf r then
    (r.drop 2).takeWhile (fun c => !(c == '/' || c == '?' || c == '#'))
  else []

/-- Truthiness of `urllib.parse.urlparse(url).netloc`. -/
def hasNetloc (url : String) : Bool := netlocOf url.data ≠ []

/-- `find_icon(sections, repo, tree)`: extract `(url, name, color)` from
the first heading containing `<img`.  A Font-Awesome preview url becomes a
symbolic name; a relative url is rewritten to an absolute
raw-content url from `repo` and `tree`. -/
def find_icon (sections : List (String × String)) (repo tree : String) :
    Option String × Option String × Option String :=
  match sections.find? (fun p => containsSub p.1 "<img") with
  | none => (none, none, none)
  | some ts =>
    let uc := scanParts (pySplit ts.1 apS) "" (none, none)
    match uc.1 with
    | none => (none, none, uc.2)
    | some u =>
      if u != "" && strStarts u faPre then
        (none, some ⟨faName u.data⟩, uc.2)
      else if u != "" then
        (if hasNetloc u then some u
         else some (pyReplace repo "github.com" "raw.githubusercontent.com" ++
                    "/" ++ tree ++ "/" ++ u),
         none, uc.2)
      else (some u, none, uc.2)

/-- The icon fields of the summary entry built by `generate_summary`:
`icon_img` when the url is truthy, else `icon` (name with color) when the
name is truthy, else neither. -/
def iconFields (sections : List (String × String)) (repo tree : String) :
    Option String × Option (String × Option String) :=
  let r := find_icon sections repo tree
  if pyTruthyS r.1 then (r.1, none)
  else if pyTruthyS r.2.1 then (none, some (r.2.1.getD "", r.2.2))
  else (none, none)

/-- Python `x or y` on an optional string and a fallback: `None` and `''`
are falsy. -/
def pyOrS (a : Option String) (b : String) : String :=
  match a with
  | some s => if s = "" then b else s
  | none => b

/-- The `description` field of the summary entry built by
`generate_summary`:
`format_sentence(find_section('About', ...) or find_section('Description', ...) or '')`. -/
def descriptionField (sections : List (String × String)) : String :=
  format_sentence
    (pyOrS (find_section "About" sections (1 / 2))
      (pyOrS (find_section "Description" sections (1 / 2)) ""))

/-- One line of `make_credits`: words are whitespace-split and stripped of
parentheses; an `@`-word sets the handle (last wins), other words join into
the display name.  The entry is `(name?, github_id?)`; a line with neither
(Python truthiness: the empty handle is falsy) yields no entry. -/
def lineCredit (line : String) : Option (Option String × Option String) :=
  let stripped := (pyWords line.data).map (stripSet ['(', ')'])
  let words := stripped.filter (fun w => !(("@".data).isPrefixOf w))
  let atWords := stripped.filter (fun w => ("@".data).isPrefixOf w)
  let username : Option (List Char) := atWords.getLast?.map (fun w => w.drop 1)
  let joined : String := ⟨(words.intersperse (" ".data)).flatten⟩
  let hasWords := !words.isEmpty
  let hasUser := match username with | some u => !u.isEmpty | none => false
  if hasWords && hasUser then some (some joined, (username.map (fun u => (⟨u⟩ : String))))
  else if hasWords then some (some joined, none)
  else if hasUser then some (none, username.map (fun u => (⟨u⟩ : String)))
  else none

/-- `make_credits(lines)`: one credit entry per line that yields a display
name or a handle, in input order. -/
def make_credits (lines : String) : List (Option String × Option String) :=
  (pySplitlines lines).filterMap lineCredit

/-!
## Specification-side helpers for the ordered-map claims
-/

/-- The keys of a section map, in iteration order. -/
def keysOf (m : List (String × String)) : List String := m.map Prod.fst

/-- Insert a key at the end unless already present: the effect of an
`OrderedDict` assignment on the key order. -/
def insOne (acc : List String) (k : String) : List String :=
  if k ∈ acc then acc else acc ++ [k]

/-- Deduplicate a list keeping the first occurrence of each element. -/
def firstDedup (l : List String) : List String := l.foldl insOne []

/-- Dictionary lookup in a section map (first entry with the key). -/
def lookupSec (k : String) (m : List (String × String)) : Option String :=
  (m.find? (fun p => p.1 == k)).map Prod.snd

/-- The raw text accumulated under the current section from the lines up
to the next heading: each line stripped and prefixed with a newline. -/
def tailBody (lines : List String) : String :=
  ⟨((lines.takeWhile (fun l => (headingOf l).isNone)).map
      (fun l => '\n' :: (pyStrip l).data)).flatten⟩

/-- The section that is current (`last_section`) after processing `lines`,
starting from `last`: the text of the last heading line, if any. -/
def currentKey (lines : List String) (last : String) : String :=
  lines.foldl (fun acc l => match headingOf l with | some k => k | none => acc) last

/-- Body of the single (empty-keyed) section of a document with no heading
lines: the lines, each stripped, joined with newlines, with the result
stripped. -/
def noHeadingsBody (lines : List String) : String :=
  pyStrip ⟨(lines.map (fun l => '\n' :: (pyStrip l).data)).flatten⟩

end Harvest

namespace Harvest

/-!
## Helper lemmas
-/

theorem strExt {s t : String} (h : s.data = t.data) : s = t := by
  cases s; cases t; exact congrArg String.mk h

theorem strAppend_data (s t : String) : (s ++ t).data = s.data ++ t.data := rfl

theorem strAppend_empty (s : String) : s ++ "" = s := by
  apply strExt
  simp [strAppend_data]

theorem empty_strAppend (s : String) : "" ++ s = s := by
  apply strExt
  simp [strAppend_data]

end Harvest

namespace Harvest

/-- C8: `parse_example` on the two documented examples: wake word and
quoting are removed, a `what ...` question gets a `?`, a command gets a
period, and trailing commentary after the closing quote is dropped. -/
theorem parse_example_documented_examples :
    parse_example "\"Hey Mycroft, what is this\"" = "What is this?" ∧
    parse_example "\"Hey Mycroft, perform test\" <<< does a test" = "Perform test." := by
  constructor
  · decide
  · decide

/-- C9: `make_credits` on the documented three-line input yields, in input
order, a handle-only entry, a name-with-handle entry, and a name-only
entry. -/
theorem make_credits_documented_example :
    make_credits ("@acmcgee\nMycroftAI (@MycroftAI)\nTom" ++ apS ++ "s great songs") =
      [(none, some "acmcgee"),
       (some "MycroftAI", some "MycroftAI"),
       (some ("Tom" ++ apS ++ "s great songs"), none)] := by
  decide

/-- C1 (failing input): the Python suffix list `["'s", "s", "", "'d", "d" "'re", "re"]`
is missing a comma, so the adjacent literals concatenate to `d're` and the
suffixes `d` and `'re` are never tested: an example starting with
`who're ` keeps its trailing period instead of getting a `?`. -/
theorem parse_example_apostrophe_re_suffix_missed :
    parse_example ("who" ++ apS ++ "re you.") = "Who" ++ apS ++ "re you." ∧
    strStarts (pyLower ("who" ++ apS ++ "re you.")) ("who" ++ apS ++ "re ") = true ∧
    ("Who" ++ apS ++ "re you.") ≠ ("Who" ++ apS ++ "re you?") := by
  refine ⟨by decide, by decide, by decide⟩

/-- C7: on the heading `<img src='icons/foo.svg' card_color='maroon'/> My Skill`,
`find_icon` rewrites the relative `src` path to an absolute
raw-content url built from the repository url (host replaced) and the
tree reference, and `find_title_info` returns the text after `/>`. -/
theorem find_icon_relative_path_example :
    find_icon
        [("<img src=" ++ apS ++ "icons/foo.svg" ++ apS ++ " card_color=" ++ apS ++
            "maroon" ++ apS ++ "/> My Skill", "Skill body"), ("", "")]
        "https://github.com/MycroftAI/skill-foo" "abc123" =
      (some "https://raw.githubusercontent.com/MycroftAI/skill-foo/abc123/icons/foo.svg",
       none, some "maroon") ∧
    find_title_info
        [("<img src=" ++ apS ++ "icons/foo.svg" ++ apS ++ " card_color=" ++ apS ++
            "maroon" ++ apS ++ "/> My Skill", "Skill body"), ("", "")]
        "skill-foo" =
      ("My Skill", "Skill body") := by
  constructor
  · decide
  · decide

end Harvest

namespace Harvest

theorem extractLoop_no_headings (lines : List String) (acc : List Char)
    (h : ∀ l ∈ lines, headingOf l = none) :
    extractLoop lines "" [("", ⟨acc⟩)] =
      [("", ⟨acc ++ (lines.map (fun l => '\n' :: (pyStrip l).data)).flatten⟩)] := by
  induction lines generalizing acc with
  | nil => simp [extractLoop]
  | cons line rest ih =>
    have hline : headingOf line = none := h line (by simp)
    have hrest : ∀ l ∈ rest, headingOf l = none := fun l hl => h l (by simp [hl])
    rw [extractLoop, hline]
    have hod : odAppend [(("" : String), (⟨acc⟩ : String))] "" ("\n" ++ pyStrip line) =
        [("", ⟨acc ++ ('\n' :: (pyStrip line).data)⟩)] := by
      simp only [odAppend, List.map]
      refine congrArg (fun x => [(("" : String), x)]) ?_
      apply strExt
      simp [strAppend_data]
    rw [hod, ih _ hrest]
    refine congrArg (fun x => [(("" : String), x)]) ?_
    apply strExt
    simp

end Harvest

namespace Harvest

/-- C3 (amended): a document with no heading-marker lines yields exactly
one section, keyed by the empty string; its body is the document's lines
individually stripped, joined by newlines, and the result stripped. -/
theorem extract_sections_no_headings (doc : String)
    (h : ∀ l ∈ pyLines doc, headingOf l = none) :
    extract_sections doc = [("", noHeadingsBody (pyLines doc))] := by
  unfold extract_sections
  have h0 : extractLoop (pyLines doc) "" [("", "")] =
      [("", ⟨[] ++ ((pyLines doc).map (fun l => '\n' :: (pyStrip l).data)).flatten⟩)] := by
    exact extractLoop_no_headings (pyLines doc) [] h
  rw [h0]
  simp only [List.nil_append, List.map, List.filter]
  rfl

/-- C3 (amended) witness at the document `"a \nb"`. -/
theorem extract_sections_no_headings_witness :
    extract_sections "a \nb" = [("", noHeadingsBody (pyLines "a \nb"))] :=
  extract_sections_no_headings "a \nb" (by decide)

/-- C3 (counterexample): on `"a \nb"` (no heading lines) the single
section body is `"a\nb"` — the lines individually stripped — which differs
from the whole document trimmed of surrounding whitespace, `"a \nb"`
itself. -/
theorem extract_sections_no_headings_cex :
    extract_sections "a \nb" = [("", "a\nb")] ∧
    ((pyLines "a \nb").all (fun l => (headingOf l).isNone)) = true ∧
    pyStrip "a \nb" = "a \nb" ∧ ("a\nb" : String) ≠ "a \nb" := by
  refine ⟨by decide, by decide, by decide, by decide⟩

end Harvest

namespace Harvest

/-- C6: `find_icon` never returns both a url and a symbolic name, and the
summary entry built from it never sets both `icon_img` and `icon`. -/
theorem icon_representations_exclusive (sections : List (String × String))
    (repo tree : String) :
    ((find_icon sections repo tree).1 = none ∨ (find_icon sections repo tree).2.1 = none) ∧
    ((iconFields sections repo tree).1 = none ∨ (iconFields sections repo tree).2 = none) := by
  constructor
  · unfold find_icon
    rcases hfind : sections.find? (fun p => containsSub p.1 "<img") with _ | ts
    · simp [hfind]
    · rcases hu : (scanParts (pySplit ts.1 apS) "" (none, none)).1 with _ | u
      · simp [hfind, hu]
      · simp only [hfind, hu]
        split
        · simp
        · split
          · split <;> simp
          · simp
  · unfold iconFields
    by_cases h1 : pyTruthyS (find_icon sections repo tree).1 = true
    · simp [h1]
    · by_cases h2 : pyTruthyS (find_icon sections repo tree).2.1 = true
      · simp [h1, h2]
      · simp [h1, h2]

/-- The result of `format_sentence` is empty or ends in a non-alphanumeric
character (a period is appended exactly when the text ended
alphanumerically). -/
theorem format_sentence_last (s : String) :
    format_sentence s = "" ∨
    ∃ c, (format_sentence s).data.getLast? = some c ∧ c.isAlphanum = false := by
  unfold format_sentence
  split
  · rename_i c hc
    by_cases h2 : c.isAlphanum = true
    · right
      refine ⟨'.', ?_, by decide⟩
      rw [if_pos h2, strAppend_data]
      have hd : ("." : String).data = ['.'] := rfl
      rw [hd]
      simp
    · right
      refine ⟨c, ?_, by simpa using h2⟩
      rw [if_neg h2]
      exact hc
  · rename_i hnone
    left
    apply strExt
    have : (caps s).data = [] := by
      cases hd : (caps s).data with
      | nil => rfl
      | cons x xs =>
        rw [hd] at hnone
        simp at hnone
    simpa using this

/-- C2 (amended): the `description` field of a summary entry is the empty
string or ends in a non-alphanumeric character (not necessarily a
period). -/
theorem description_terminator (sections : List (String × String)) :
    descriptionField sections = "" ∨
    ∃ c, (descriptionField sections).data.getLast? = some c ∧ c.isAlphanum = false := by
  unfold descriptionField
  exact format_sentence_last _

end Harvest

namespace Harvest

/-!
## The similarity ratio of equal sequences

On two copies of the same sequence the dynamic-programming loop of
`find_longest_match` finds the full-length diagonal block, so the ratio of
a string with itself is `1`.
-/

theorem newRow_le (t : List Char) (i : Nat) (prev : Nat → Nat)
    (hb : ∀ j, prev j ≤ i ∧ prev j ≤ j + 1) :
    ∀ j, newRow t t i 0 t.length prev j ≤ i + 1 ∧ newRow t t i 0 t.length prev j ≤ j + 1 := by
  intro j
  unfold newRow
  split
  · by_cases hj : j = 0
    · subst hj
      simp
    · rw [if_neg hj]
      refine ⟨Nat.succ_le_succ (hb (j - 1)).1, ?_⟩
      have h2 := (hb (j - 1)).2
      omega
  · exact ⟨Nat.zero_le _, Nat.zero_le _⟩

theorem newRow_diag (t : List Char) (i : Nat) (prev : Nat → Nat)
    (hi : i < t.length) (hd : i = 0 ∨ prev (i - 1) = i) :
    newRow t t i 0 t.length prev i = i + 1 := by
  unfold newRow
  rw [if_pos ⟨Nat.zero_le i, hi, rfl⟩]
  by_cases hz : i = 0
  · subst hz
    simp
  · rw [if_neg hz]
    rcases hd with h0 | hp
    · exact absurd h0 hz
    · rw [hp]

theorem rowFold_append (i : Nat) (k : Nat → Nat) (A B : List Nat)
    (best : Nat × Nat × Nat) :
    rowFold i k (A ++ B) best = rowFold i k B (rowFold i k A best) :=
  List.foldl_append _ _ _ _

theorem rowFold_no_update (i : Nat) (k : Nat → Nat) (js : List Nat)
    (best : Nat × Nat × Nat) (h : ∀ j ∈ js, k j ≤ best.2.2) :
    rowFold i k js best = best := by
  induction js with
  | nil => rfl
  | cons j js ih =>
    have hstep : (if best.2.2 < k j then (i + 1 - k j, j + 1 - k j, k j) else best) = best :=
      if_neg (Nat.not_lt.mpr (h j (List.mem_cons_self j js)))
    show rowFold i k js (if best.2.2 < k j then (i + 1 - k j, j + 1 - k j, k j) else best) = best
    rw [hstep]
    exact ih (fun x hx => h x (List.mem_cons_of_mem _ hx))

theorem rowFold_diag (t : List Char) (i : Nat) (k : Nat → Nat)
    (hi : i < t.length)
    (hb : ∀ j, k j ≤ i + 1 ∧ k j ≤ j + 1)
    (hd : k i = i + 1) :
    rowFold i k (bMatches t t i 0 t.length) (0, 0, i) = (0, 0, i + 1) := by
  have hsplit : bMatches t t i 0 t.length =
      ((List.range i).filter
          (fun j => decide (0 ≤ j) && decide (t.get? j = t.get? i)) ++ [i]) ++
        ((List.range (t.length - i - 1)).map (fun x => i + 1 + x)).filter
          (fun j => decide (0 ≤ j) && decide (t.get? j = t.get? i)) := by
    unfold bMatches
    conv_lhs => rw [show t.length = i + 1 + (t.length - i - 1) from by omega]
    rw [List.range_add, List.range_succ, List.filter_append, List.filter_append]
    have hmid : List.filter
        (fun j => decide (0 ≤ j) && decide (t.get? j = t.get? i)) [i] = [i] := by
      simp
    rw [hmid]
  rw [hsplit, rowFold_append, rowFold_append]
  have hA : rowFold i k
      ((List.range i).filter (fun j => decide (0 ≤ j) && decide (t.get? j = t.get? i)))
      (0, 0, i) = (0, 0, i) := by
    refine rowFold_no_update _ _ _ _ (fun j hj => ?_)
    have hji : j < i := List.mem_range.mp (List.mem_filter.mp hj).1
    have := (hb j).2
    show k j ≤ i
    omega
  rw [hA]
  have hmid : rowFold i k [i] (0, 0, i) = (0, 0, i + 1) := by
    show (if i < k i then (i + 1 - k i, i + 1 - k i, k i) else (0, 0, i)) =
      (0, 0, i + 1)
    rw [hd, if_pos (Nat.lt_succ_self i)]
    simp
  rw [hmid]
  refine rowFold_no_update _ _ _ _ (fun j _ => ?_)
  exact (hb j).1

theorem flmAux_diag (t : List Char) :
    ∀ (r i : Nat) (prev : Nat → Nat),
      i + r = t.length →
      (∀ j, prev j ≤ i ∧ prev j ≤ j + 1) →
      (i = 0 ∨ prev (i - 1) = i) →
      flmAux t t 0 t.length (List.range' i r) prev (0, 0, i) = (0, 0, t.length) := by
  intro r
  induction r with
  | zero =>
    intro i prev hir _ _
    have : i = t.length := by omega
    subst this
    rfl
  | succ r ih =>
    intro i prev hir hb hd
    have hi : i < t.length := by omega
    have hrange : List.range' i (r + 1) = i :: List.range' (i + 1) r := List.range'_succ i r 1
    rw [hrange]
    show flmAux t t 0 t.length (List.range' (i + 1) r) (newRow t t i 0 t.length prev)
        (rowFold i (newRow t t i 0 t.length prev) (bMatches t t i 0 t.length) (0, 0, i)) =
      (0, 0, t.length)
    rw [rowFold_diag t i _ hi (newRow_le t i prev hb) (newRow_diag t i prev hi hd)]
    exact ih (i + 1) _ (by omega) (newRow_le t i prev hb)
      (Or.inr (by simpa using newRow_diag t i prev hi hd))

theorem flm_self (t : List Char) : flm t t 0 t.length 0 t.length = (0, 0, t.length) := by
  unfold flm
  rw [Nat.sub_zero]
  exact flmAux_diag t t.length 0 (fun _ => 0) (by omega)
    (fun j => ⟨Nat.le_refl 0, Nat.zero_le _⟩) (Or.inl rfl)

theorem mbSum_degenerate (a b : List Char) (fuel x y : Nat) :
    mbSum a b fuel x x y y = 0 := by
  cases fuel with
  | zero => rfl
  | succ f =>
    have hflm : flm a b x x y y = (x, y, 0) := by
      unfold flm
      rw [Nat.sub_self]
      rfl
    show (if (flm a b x x y y).2.2 = 0 then 0
          else mbSum a b f x (flm a b x x y y).1 y (flm a b x x y y).2.1 +
            (flm a b x x y y).2.2 +
            mbSum a b f ((flm a b x x y y).1 + (flm a b x x y y).2.2) x
              ((flm a b x x y y).2.1 + (flm a b x x y y).2.2) y) = 0
    rw [hflm]
    rfl

theorem totalMatches_self (t : List Char) : totalMatches t t = t.length := by
  unfold totalMatches
  show (if (flm t t 0 t.length 0 t.length).2.2 = 0 then 0
        else mbSum t t t.length 0 (flm t t 0 t.length 0 t.length).1 0
            (flm t t 0 t.length 0 t.length).2.1 +
          (flm t t 0 t.length 0 t.length).2.2 +
          mbSum t t t.length
            ((flm t t 0 t.length 0 t.length).1 + (flm t t 0 t.length 0 t.length).2.2)
            t.length
            ((flm t t 0 t.length 0 t.length).2.1 + (flm t t 0 t.length 0 t.length).2.2)
            t.length) = t.length
  rw [flm_self]
  show (if t.length = 0 then 0
        else mbSum t t t.length 0 0 0 0 + t.length +
          mbSum t t t.length (0 + t.length) t.length (0 + t.length) t.length) = t.length
  by_cases h : t.length = 0
  · simp [h]
  · rw [if_neg h, mbSum_degenerate, Nat.zero_add, mbSum_degenerate]
    omega

theorem ratioOf_self (t : List Char) : ratioOf t t = 1 := by
  unfold ratioOf
  by_cases h : t.length + t.length = 0
  · rw [if_pos h]
  · rw [if_neg h, totalMatches_self]
    have hne : t.length ≠ 0 := by omega
    have hq : ((t.length : ℚ) + (t.length : ℚ)) ≠ 0 := by
      have : (0 : ℚ) < (t.length : ℚ) := by exact_mod_cast Nat.pos_of_ne_zero hne
      positivity
    field_simp
    ring

theorem compare_eq_one_of_lower_eq (s s' : String) (h : pyLower s = pyLower s') :
    Harvest.compare s s' = 1 := by
  unfold Harvest.compare
  rw [h]
  exact ratioOf_self _

theorem totalMatches_nil_left (b : List Char) : totalMatches [] b = 0 := rfl

theorem ratioOf_nil_left (b : List Char) (h : b.length ≠ 0) : ratioOf [] b = 0 := by
  unfold ratioOf
  rw [totalMatches_nil_left]
  rw [if_neg (by simpa using h)]
  simp

end Harvest

namespace Harvest

theorem find_section_about_cex :
    find_section "About" [("About", "Does stuff!"), ("", "")] (1 / 2) =
      some "Does stuff!" := by
  have h1 : Harvest.compare "About" "About" = 1 := compare_eq_one_of_lower_eq _ _ rfl
  have h2 : Harvest.compare "" "About" = 0 := by
    unfold Harvest.compare
    have hd : (pyLower "").data = [] := rfl
    rw [hd, ratioOf_nil_left]
    decide
  unfold find_section pymax
  simp only [List.map, List.foldl, pymaxStep]
  rw [h1, h2]
  norm_num

/-- C2 (counterexample): a README whose `About` section reads
`Does stuff!` produces the description `Does stuff!`, which is nonempty
and does not end with a period. -/
theorem description_period_cex :
    descriptionField [("About", "Does stuff!"), ("", "")] = "Does stuff!" ∧
    ("Does stuff!" : String) ≠ "" ∧
    ("Does stuff!" : String).data.getLast? = some '!' ∧
    ('!').isAlphanum = false := by
  refine ⟨?_, by decide, by decide, by decide⟩
  unfold descriptionField
  rw [find_section_about_cex]
  have hOr : ∀ x : String, pyOrS (some "Does stuff!") x = "Does stuff!" := by
    intro x
    show (if ("Does stuff!" : String) = "" then x else "Does stuff!") = "Does stuff!"
    rw [if_neg (by decide)]
  rw [hOr]
  decide

end Harvest

namespace Harvest

/-!
## First-maximum properties of `pymax`
-/

theorem pymax_foldl_mem {α : Type} (xs : List (α × ℚ)) (x : α × ℚ) :
    xs.foldl pymaxStep x ∈ x :: xs := by
  induction xs generalizing x with
  | nil => simp
  | cons z zs ih =>
    rw [List.foldl_cons]
    rcases List.mem_cons.mp (ih (pymaxStep x z)) with h1 | h2
    · rw [h1]
      unfold pymaxStep
      split
      · simp
      · simp
    · simp [h2]

theorem pymaxStep_left_le {α : Type} (x z : α × ℚ) : x.2 ≤ (pymaxStep x z).2 := by
  unfold pymaxStep
  split
  · exact le_of_lt (by assumption)
  · exact le_refl _

theorem pymaxStep_right_le {α : Type} (x z : α × ℚ) : z.2 ≤ (pymaxStep x z).2 := by
  unfold pymaxStep
  split
  · exact le_refl _
  · exact le_of_not_lt (by assumption)

theorem pymax_foldl_ge {α : Type} (xs : List (α × ℚ)) (x : α × ℚ) :
    ∀ y ∈ x :: xs, y.2 ≤ (xs.foldl pymaxStep x).2 := by
  induction xs generalizing x with
  | nil =>
    intro y hy
    rw [List.mem_singleton.mp hy]
    exact le_refl _
  | cons z zs ih =>
    intro y hy
    rw [List.foldl_cons]
    have hhead : (pymaxStep x z).2 ≤ (zs.foldl pymaxStep (pymaxStep x z)).2 :=
      ih (pymaxStep x z) _ (List.mem_cons_self _ _)
    rcases List.mem_cons.mp hy with h1 | h2
    · rw [h1]
      exact le_trans (pymaxStep_left_le x z) hhead
    · rcases List.mem_cons.mp h2 with h3 | h4
      · rw [h3]
        exact le_trans (pymaxStep_right_le x z) hhead
      · exact ih (pymaxStep x z) y (List.mem_cons_of_mem _ h4)

theorem pymax_foldl_first {α : Type} (xs : List (α × ℚ)) (x : α × ℚ) :
    ∃ l₁ l₂, x :: xs = l₁ ++ (xs.foldl pymaxStep x) :: l₂ ∧
      ∀ y ∈ l₁, y.2 < (xs.foldl pymaxStep x).2 := by
  induction xs generalizing x with
  | nil => exact ⟨[], [], rfl, by simp⟩
  | cons z zs ih =>
    rw [List.foldl_cons]
    by_cases hxz : x.2 < z.2
    · have hstep : pymaxStep x z = z := if_pos hxz
      rw [hstep]
      obtain ⟨l₁, l₂, hdecomp, hlt⟩ := ih z
      refine ⟨x :: l₁, l₂, ?_, ?_⟩
      · rw [List.cons_append, ← hdecomp]
      · intro y hy
        rcases List.mem_cons.mp hy with h1 | h2
        · rw [h1]
          calc x.2 < z.2 := hxz
            _ ≤ (zs.foldl pymaxStep z).2 := pymax_foldl_ge zs z z (List.mem_cons_self _ _)
        · exact hlt y h2
    · have hstep : pymaxStep x z = x := if_neg hxz
      rw [hstep]
      obtain ⟨l₁, l₂, hdecomp, hlt⟩ := ih x
      cases l₁ with
      | nil =>
        rw [List.nil_append] at hdecomp
        refine ⟨[], z :: zs, ?_, by simp⟩
        rw [List.nil_append]
        have hM : zs.foldl pymaxStep x = x := (List.cons.injEq _ _ _ _ ▸ hdecomp).1.symm
        rw [hM]
      | cons w l₁' =>
        rw [List.cons_append] at hdecomp
        have hw : x = w := (List.cons.injEq _ _ _ _ ▸ hdecomp).1
        have hzs : zs = l₁' ++ (zs.foldl pymaxStep x) :: l₂ :=
          (List.cons.injEq _ _ _ _ ▸ hdecomp).2
        refine ⟨x :: z :: l₁', l₂, ?_, ?_⟩
        · rw [List.cons_append, List.cons_append, ← hzs]
        · intro y hy
          have hxlt : x.2 < (zs.foldl pymaxStep x).2 := by
            have := hlt w (List.mem_cons_self _ _)
            rw [← hw] at this
            exact this
          rcases List.mem_cons.mp hy with h1 | h2
          · rw [h1]; exact hxlt
          · rcases List.mem_cons.mp h2 with h3 | h4
            · rw [h3]
              exact lt_of_le_of_lt (le_of_not_lt hxz) hxlt
            · exact hlt y (List.mem_cons_of_mem _ h4)

theorem map_eq_append_cons {α β : Type} (f : α → β) :
    ∀ (l : List α) (A : List β) (m : β) (B : List β),
      l.map f = A ++ m :: B →
      ∃ a q b, l = a ++ q :: b ∧ a.map f = A ∧ f q = m ∧ b.map f = B := by
  intro l
  induction l with
  | nil =>
    intro A m B h
    rw [List.map_nil] at h
    exact absurd h.symm (List.append_ne_nil_of_right_ne_nil _ (by simp))
  | cons p l ih =>
    intro A m B h
    cases A with
    | nil =>
      rw [List.map_cons, List.nil_append] at h
      have h1 : f p = m := (List.cons.injEq _ _ _ _ ▸ h).1
      have h2 : l.map f = B := (List.cons.injEq _ _ _ _ ▸ h).2
      exact ⟨[], p, l, by simp, rfl, h1, h2⟩
    | cons a A' =>
      rw [List.map_cons, List.cons_append] at h
      have h1 : f p = a := (List.cons.injEq _ _ _ _ ▸ h).1
      have h2 : l.map f = A' ++ m :: B := (List.cons.injEq _ _ _ _ ▸ h).2
      obtain ⟨a', q, b, hl, hA, hq, hB⟩ := ih A' m B h2
      exact ⟨p :: a', q, b, by rw [hl, List.cons_append], by rw [List.map_cons, hA, h1], hq, hB⟩

end Harvest

namespace Harvest

/-- C4: `find_section` selects the entry whose heading scores the highest
case-insensitive similarity against `name`, ties broken by map order
(strictly smaller scores before the selected entry), and returns its body
exactly when the score reaches the threshold; an exact case-insensitive
match scores `1` and is therefore always selected over strictly
lower-scoring competitors. -/
theorem find_section_fuzzy_spec :
    (∀ (name : String) (sections : List (String × String)) (c : ℚ),
        sections ≠ [] →
        ∃ (t b : String) (l₁ l₂ : List (String × String)),
          sections = l₁ ++ (t, b) :: l₂ ∧
          (∀ q ∈ sections, Harvest.compare q.1 name ≤ Harvest.compare t name) ∧
          (∀ q ∈ l₁, Harvest.compare q.1 name < Harvest.compare t name) ∧
          find_section name sections c =
            (if Harvest.compare t name < c then none else some b)) ∧
    (∀ s s' : String, pyLower s = pyLower s' → Harvest.compare s s' = 1) ∧
    (∀ (name : String) (c : ℚ) (t b : String) (l₁ l₂ : List (String × String)),
        pyLower t = pyLower name →
        (∀ q ∈ l₁ ++ l₂, Harvest.compare q.1 name < 1) →
        c ≤ 1 →
        find_section name (l₁ ++ (t, b) :: l₂) c = some b) := by
  have part1 : ∀ (name : String) (sections : List (String × String)) (c : ℚ),
      sections ≠ [] →
      ∃ (t b : String) (l₁ l₂ : List (String × String)),
        sections = l₁ ++ (t, b) :: l₂ ∧
        (∀ q ∈ sections, Harvest.compare q.1 name ≤ Harvest.compare t name) ∧
        (∀ q ∈ l₁, Harvest.compare q.1 name < Harvest.compare t name) ∧
        find_section name sections c =
          (if Harvest.compare t name < c then none else some b) := by
    intro name sections c hne
    obtain ⟨p, rest, rfl⟩ : ∃ p rest, sections = p :: rest := by
      cases sections with
      | nil => exact absurd rfl hne
      | cons p rest => exact ⟨p, rest, rfl⟩
    set f : (String × String) → (String × String) × ℚ :=
      fun q => (q, Harvest.compare q.1 name) with hf
    set M := (rest.map f).foldl pymaxStep (f p) with hMdef
    have hfs : find_section name (p :: rest) c = if M.2 < c then none else some M.1.2 := rfl
    have hge := pymax_foldl_ge (rest.map f) (f p)
    obtain ⟨L₁, L₂, hdec, hlt⟩ := pymax_foldl_first (rest.map f) (f p)
    have hdec' : (p :: rest).map f = L₁ ++ M :: L₂ := by
      rw [List.map_cons]
      exact hdec
    obtain ⟨l₁, q, l₂, hsec, hA, hq, hB⟩ := map_eq_append_cons f (p :: rest) L₁ M L₂ hdec'
    refine ⟨q.1, q.2, l₁, l₂, ?_, ?_, ?_, ?_⟩
    · rw [Prod.mk.eta]
      exact hsec
    · intro r hr
      have hmem : f r ∈ f p :: rest.map f := by
        rw [← List.map_cons]
        exact List.mem_map_of_mem f hr
      have h2 := hge (f r) hmem
      rw [← hMdef, ← hq] at h2
      exact h2
    · intro r hr
      have hmem : f r ∈ L₁ := by
        rw [← hA]
        exact List.mem_map_of_mem f hr
      have h2 := hlt (f r) hmem
      rw [← hMdef, ← hq] at h2
      exact h2
    · rw [hfs, ← hq]
  refine ⟨part1, compare_eq_one_of_lower_eq, ?_⟩
  intro name c t b l₁ l₂ hlow hother hc
  have hne : l₁ ++ (t, b) :: l₂ ≠ [] := by simp
  obtain ⟨t', b', m₁, m₂, hdec, hge, _, heq⟩ := part1 name _ c hne
  have h1 : Harvest.compare t name = 1 := compare_eq_one_of_lower_eq _ _ hlow
  have hmem : (t, b) ∈ l₁ ++ (t, b) :: l₂ := by simp
  have hge1 : (1 : ℚ) ≤ Harvest.compare t' name := by
    have := hge (t, b) hmem
    rw [h1] at this
    exact this
  have hmem' : (t', b') ∈ l₁ ++ (t, b) :: l₂ := by
    rw [hdec]
    simp
  rcases List.mem_append.mp hmem' with hin | hin
  · have := hother (t', b') (List.mem_append_left _ hin)
    exact absurd hge1 (not_le.mpr this)
  · rcases List.mem_cons.mp hin with heq2 | hin2
    · have ht' : t' = t := (Prod.mk.injEq _ _ _ _ ▸ heq2).1
      have hb' : b' = b := (Prod.mk.injEq _ _ _ _ ▸ heq2).2
      rw [heq, ht', hb', h1, if_neg (not_lt.mpr hc)]
    · have := hother (t', b') (List.mem_append_right _ hin2)
      exact absurd hge1 (not_le.mpr this)

/-- C4 witness: a one-entry map with an exact heading match at threshold
`1/2`. -/
theorem find_section_fuzzy_spec_witness :
    find_section "About" ([] ++ ("About", "body") :: []) (1 / 2) = some "body" :=
  find_section_fuzzy_spec.2.2 "About" (1 / 2) "About" "body" [] [] rfl
    (by intro q hq; simp at hq) (by norm_num)

end Harvest

namespace Harvest

/-!
## Key-order lemmas for `extract_sections`
-/

theorem keysOf_map_value (m : List (String × String)) (g : String × String → String) :
    keysOf (m.map (fun p => (p.1, g p))) = keysOf m := by
  unfold keysOf
  rw [List.map_map]
  rfl

theorem keysOf_odInsertReset (m : List (String × String)) (k : String) :
    keysOf (odInsertReset m k) = insOne (keysOf m) k := by
  unfold odInsertReset insOne
  by_cases h : k ∈ keysOf m
  · have hany : m.any (fun p => p.1 == k) = true := by
      rw [List.any_eq_true]
      obtain ⟨p, hp, hpk⟩ := List.mem_map.mp h
      exact ⟨p, hp, by simp [hpk]⟩
    rw [if_pos hany, if_pos h]
    unfold keysOf
    rw [List.map_map]
    refine List.map_congr_left (fun p _ => ?_)
    show (if (p.1 == k) = true then (p.1, "") else p).1 = p.1
    by_cases hpk : (p.1 == k) = true
    · rw [if_pos hpk]
    · rw [if_neg hpk]
  · have hany : ¬ (m.any (fun p => p.1 == k) = true) := by
      rw [List.any_eq_true]
      rintro ⟨p, hp, hpk⟩
      exact h (List.mem_map.mpr ⟨p, hp, eq_of_beq hpk⟩)
    rw [if_neg hany, if_neg h]
    unfold keysOf
    rw [List.map_append]
    rfl

theorem keysOf_odAppend (m : List (String × String)) (k s : String) :
    keysOf (odAppend m k s) = keysOf m := by
  unfold odAppend keysOf
  rw [List.map_map]
  refine List.map_congr_left (fun p _ => ?_)
  show (if (p.1 == k) = true then (p.1, p.2 ++ s) else p).1 = p.1
  by_cases hpk : (p.1 == k) = true
  · rw [if_pos hpk]
  · rw [if_neg hpk]

theorem keysOf_extractLoop :
    ∀ (lines : List String) (last : String) (m : List (String × String)),
      keysOf (extractLoop lines last m) =
        (lines.filterMap headingOf).foldl insOne (keysOf m) := by
  intro lines
  induction lines with
  | nil => intro last m; rfl
  | cons line rest ih =>
    intro last m
    unfold extractLoop
    rcases h : headingOf line with _ | k
    · rw [List.filterMap_cons_none h, ih, keysOf_odAppend]
    · rw [List.filterMap_cons_some h, List.foldl_cons, ih, keysOf_odInsertReset]

theorem mem_foldl_insOne (l : List String) :
    ∀ (acc : List String) (a : String), (a ∈ acc ∨ a ∈ l) → a ∈ l.foldl insOne acc := by
  induction l with
  | nil =>
    intro acc a h
    rcases h with h | h
    · exact h
    · simp at h
  | cons k ks ih =>
    intro acc a h
    rw [List.foldl_cons]
    have hins : a ∈ acc → a ∈ insOne acc k := by
      intro ha
      unfold insOne
      split
      · exact ha
      · exact List.mem_append_left _ ha
    rcases h with h | h
    · exact ih (insOne acc k) a (Or.inl (hins h))
    · rcases List.mem_cons.mp h with h1 | h2
      · refine ih (insOne acc k) a (Or.inl ?_)
        rw [h1]
        unfold insOne
        split
        · assumption
        · exact List.mem_append_right _ (by simp)
      · exact ih (insOne acc k) a (Or.inr h2)

theorem nodup_foldl_insOne (l : List String) :
    ∀ acc : List String, acc.Nodup → (l.foldl insOne acc).Nodup := by
  induction l with
  | nil => intro acc h; exact h
  | cons k ks ih =>
    intro acc h
    rw [List.foldl_cons]
    refine ih _ ?_
    unfold insOne
    split
    · exact h
    · rw [List.nodup_append]
      exact ⟨h, List.nodup_singleton k, by simpa using (by assumption : ¬ k ∈ acc)⟩

theorem filter_foldl_insOne (p : String → Bool) (l : List String) :
    ∀ acc : List String,
      (l.foldl insOne acc).filter p = (l.filter p).foldl insOne (acc.filter p) := by
  induction l with
  | nil => intro acc; rfl
  | cons k ks ih =>
    intro acc
    rw [List.foldl_cons, ih]
    by_cases hpk : p k = true
    · have h1 : (insOne acc k).filter p = insOne (acc.filter p) k := by
        unfold insOne
        by_cases hmem : k ∈ acc
        · rw [if_pos hmem, if_pos (List.mem_filter.mpr ⟨hmem, hpk⟩)]
        · rw [if_neg hmem, if_neg (fun hc => hmem (List.mem_filter.mp hc).1)]
          rw [List.filter_append]
          simp [hpk]
      rw [h1, List.filter_cons_of_pos hpk, List.foldl_cons]
    · have h1 : (insOne acc k).filter p = acc.filter p := by
        unfold insOne
        split
        · rfl
        · rw [List.filter_append]
          simp [hpk]
      rw [h1, List.filter_cons_of_neg (by simpa using hpk)]

end Harvest

namespace Harvest

theorem keysOf_filter_key (q : String → Bool) (m : List (String × String)) :
    keysOf (m.filter (fun p => q p.1)) = (keysOf m).filter q := by
  unfold keysOf
  induction m with
  | nil => rfl
  | cons p m ih =>
    rw [List.map_cons]
    simp only [List.filter_cons]
    by_cases hq : q p.1 = true
    · rw [if_pos hq, if_pos hq, List.map_cons, ih]
    · rw [if_neg hq, if_neg hq, ih]

theorem filter_beq_singleton (x : String) :
    ∀ K : List String, K.Nodup → x ∈ K → K.filter (fun y => y == x) = [x] := by
  intro K
  induction K with
  | nil => intro _ h; simp at h
  | cons a K ih =>
    intro hnd hmem
    simp only [List.filter_cons]
    rcases List.mem_cons.mp hmem with h1 | h2
    · have hx : x ∉ K := by
        rw [h1]
        exact (List.nodup_cons.mp hnd).1
      rw [if_pos (by simp [h1.symm]), ← h1, List.filter_eq_nil_iff.mpr ?_]
      intro y hy hbeq
      exact hx (by rwa [eq_of_beq hbeq] at hy)
    · have ha : ¬ (a == x) = true := by
        intro hbeq
        exact (List.nodup_cons.mp hnd).1 (by rwa [eq_of_beq hbeq])
      rw [if_neg ha]
      exact ih (List.nodup_cons.mp hnd).2 h2

/-- Full characterization of the key order of `extract_sections`: the
nonempty headings in order of first occurrence, followed by the empty
key. -/
theorem keysOf_extract_sections (doc : String) :
    keysOf (extract_sections doc) =
      firstDedup (((pyLines doc).filterMap headingOf).filter (fun h => h != "")) ++ [""] := by
  unfold extract_sections
  set m0 := extractLoop (pyLines doc) "" [("", "")] with hm0
  set m1 := m0.map (fun p => (p.1, pyStrip p.2)) with hm1
  have hK : keysOf m1 = ((pyLines doc).filterMap headingOf).foldl insOne [""] := by
    rw [hm1, keysOf_map_value, hm0, keysOf_extractLoop]
    rfl
  have hKnd : (keysOf m1).Nodup := by
    rw [hK]
    exact nodup_foldl_insOne _ _ (List.nodup_singleton "")
  have hKmem : "" ∈ keysOf m1 := by
    rw [hK]
    exact mem_foldl_insOne _ _ _ (Or.inl (by simp))
  show keysOf (m1.filter (fun p => p.1 != "") ++ m1.filter (fun p => p.1 == "")) = _
  have happ : keysOf (m1.filter (fun p => p.1 != "") ++ m1.filter (fun p => p.1 == "")) =
      keysOf (m1.filter (fun p => p.1 != "")) ++ keysOf (m1.filter (fun p => p.1 == "")) :=
    List.map_append _ _ _
  rw [happ, keysOf_filter_key (fun x => x != "") m1, keysOf_filter_key (fun x => x == "") m1]
  rw [filter_beq_singleton "" (keysOf m1) hKnd hKmem]
  rw [hK, filter_foldl_insOne (fun x => x != "") _ [""]]
  rfl

/-- C5: for every document, the section map of `extract_sections` contains
the empty-string key, and it is the last key in iteration order. -/
theorem empty_key_always_last (doc : String) :
    (keysOf (extract_sections doc)).getLast? = some "" ∧
    "" ∈ keysOf (extract_sections doc) := by
  rw [keysOf_extract_sections]
  exact ⟨List.getLast?_concat _, List.mem_append_right _ (by simp)⟩

end Harvest



namespace Harvest

/-!
## Body-tracking lemmas for `extract_sections`
-/

theorem findP_cons_pos (p : String × String → Bool) (a : String × String)
    (l : List (String × String)) (h : p a = true) : (a :: l).find? p = some a := by
  simp [List.find?_cons, h]

theorem findP_cons_neg (p : String × String → Bool) (a : String × String)
    (l : List (String × String)) (h : p a = false) : (a :: l).find? p = l.find? p := by
  simp [List.find?_cons, h]

theorem lookupSec_mapReset_self (h : String) :
    ∀ m : List (String × String), (∃ p ∈ m, p.1 = h) →
      lookupSec h (m.map (fun p => if p.1 == h then (p.1, "") else p)) = some "" := by
  intro m
  induction m with
  | nil =>
    rintro ⟨p, hp, _⟩
    simp at hp
  | cons q m ih =>
    rintro ⟨p, hp, hpk⟩
    rw [List.map_cons]
    by_cases hq : (q.1 == h) = true
    · rw [if_pos hq]
      unfold lookupSec
      rw [findP_cons_pos (fun p => p.1 == h) _ _ (by simpa using hq)]
      rfl
    · rw [if_neg hq]
      unfold lookupSec
      rw [findP_cons_neg (fun p => p.1 == h) _ _ (by simpa using hq)]
      refine ih ⟨p, ?_, hpk⟩
      rcases List.mem_cons.mp hp with h1 | h2
      · rw [h1] at hpk
        exact absurd (by simp [hpk]) hq
      · exact h2

theorem lookupSec_mapReset_other (k h : String) (hkh : k ≠ h) :
    ∀ m : List (String × String),
      lookupSec h (m.map (fun p => if p.1 == k then (p.1, "") else p)) = lookupSec h m := by
  intro m
  induction m with
  | nil => rfl
  | cons q m ih =>
    rw [List.map_cons]
    by_cases hqh : (q.1 == h) = true
    · have hqk : ¬ (q.1 == k) = true := by
        intro hc
        exact hkh ((eq_of_beq hc).symm.trans (eq_of_beq hqh))
      rw [if_neg hqk]
      unfold lookupSec
      rw [findP_cons_pos (fun p => p.1 == h) _ _ hqh,
        findP_cons_pos (fun p => p.1 == h) _ _ hqh]
    · unfold lookupSec
      by_cases hqk : (q.1 == k) = true
      · rw [if_pos hqk]
        rw [findP_cons_neg (fun p => p.1 == h) _ _ (by simpa using hqh),
          findP_cons_neg (fun p => p.1 == h) _ _ (by simpa using hqh)]
        exact ih
      · rw [if_neg hqk]
        rw [findP_cons_neg (fun p => p.1 == h) _ _ (by simpa using hqh),
          findP_cons_neg (fun p => p.1 == h) _ _ (by simpa using hqh)]
        exact ih

theorem lookupSec_odInsertReset_self (m : List (String × String)) (h : String) :
    lookupSec h (odInsertReset m h) = some "" := by
  unfold odInsertReset
  by_cases hany : (m.any fun p => p.1 == h) = true
  · rw [if_pos hany]
    obtain ⟨p, hp, hpk⟩ := List.any_eq_true.mp hany
    exact lookupSec_mapReset_self h m ⟨p, hp, eq_of_beq hpk⟩
  · rw [if_neg hany]
    unfold lookupSec
    rw [List.find?_append]
    have hnone : m.find? (fun p => p.1 == h) = none := by
      rw [List.find?_eq_none]
      intro p hp hpk
      exact hany (List.any_eq_true.mpr ⟨p, hp, hpk⟩)
    rw [hnone, findP_cons_pos (fun p => p.1 == h) _ _ (by simp)]
    rfl

theorem lookupSec_odInsertReset_other (m : List (String × String)) (k h : String)
    (hkh : k ≠ h) :
    lookupSec h (odInsertReset m k) = lookupSec h m := by
  unfold odInsertReset
  by_cases hany : (m.any fun p => p.1 == k) = true
  · rw [if_pos hany]
    exact lookupSec_mapReset_other k h hkh m
  · rw [if_neg hany]
    unfold lookupSec
    rw [List.find?_append]
    have hx : List.find? (fun p => p.1 == h) [(k, "")] = none := by
      rw [findP_cons_neg (fun p => p.1 == h) _ _ (by simpa using hkh)]
      rfl
    rw [hx, Option.or_none]

theorem lookupSec_odAppend_self (m : List (String × String)) (h s : String) :
    lookupSec h (odAppend m h s) = (lookupSec h m).map (fun v => v ++ s) := by
  unfold odAppend
  induction m with
  | nil => rfl
  | cons q m ih =>
    rw [List.map_cons]
    by_cases hq : (q.1 == h) = true
    · rw [if_pos hq]
      unfold lookupSec
      rw [findP_cons_pos (fun p => p.1 == h) _ _ (by simpa using hq),
        findP_cons_pos (fun p => p.1 == h) _ _ hq]
      rfl
    · rw [if_neg hq]
      unfold lookupSec
      rw [findP_cons_neg (fun p => p.1 == h) _ _ (by simpa using hq),
        findP_cons_neg (fun p => p.1 == h) _ _ (by simpa using hq)]
      exact ih

theorem lookupSec_odAppend_other (m : List (String × String)) (k h s : String)
    (hkh : k ≠ h) :
    lookupSec h (odAppend m k s) = lookupSec h m := by
  unfold odAppend
  induction m with
  | nil => rfl
  | cons q m ih =>
    rw [List.map_cons]
    by_cases hqh : (q.1 == h) = true
    · have hqk : ¬ (q.1 == k) = true := by
        intro hc
        exact hkh ((eq_of_beq hc).symm.trans (eq_of_beq hqh))
      rw [if_neg hqk]
      unfold lookupSec
      rw [findP_cons_pos (fun p => p.1 == h) _ _ hqh,
        findP_cons_pos (fun p => p.1 == h) _ _ hqh]
    · unfold lookupSec
      by_cases hqk : (q.1 == k) = true
      · rw [if_pos hqk]
        rw [findP_cons_neg (fun p => p.1 == h) _ _ (by simpa using hqh),
          findP_cons_neg (fun p => p.1 == h) _ _ (by simpa using hqh)]
        exact ih
      · rw [if_neg hqk]
        rw [findP_cons_neg (fun p => p.1 == h) _ _ (by simpa using hqh),
          findP_cons_neg (fun p => p.1 == h) _ _ (by simpa using hqh)]
        exact ih

end Harvest

namespace Harvest

theorem lookupSec_extractLoop_other (h : String) :
    ∀ (lines : List String) (last : String) (m : List (String × String)),
      last ≠ h → (∀ l ∈ lines, headingOf l ≠ some h) →
      lookupSec h (extractLoop lines last m) = lookupSec h m := by
  intro lines
  induction lines with
  | nil =>
    intro last m _ _
    rfl
  | cons line rest ih =>
    intro last m hlast hheads
    rcases hl : headingOf line with _ | k
    · have hstep : extractLoop (line :: rest) last m =
          extractLoop rest last (odAppend m last ("\n" ++ pyStrip line)) := by
        conv_lhs => rw [extractLoop]
        rw [hl]
      rw [hstep, ih last _ hlast (fun l hl2 => hheads l (List.mem_cons_of_mem _ hl2))]
      exact lookupSec_odAppend_other m last h _ hlast
    · have hk : k ≠ h := by
        intro he
        exact hheads line (List.mem_cons_self _ _) (by rw [hl, he])
      have hstep : extractLoop (line :: rest) last m =
          extractLoop rest k (odInsertReset m k) := by
        conv_lhs => rw [extractLoop]
        rw [hl]
      rw [hstep, ih k _ hk (fun l hl2 => hheads l (List.mem_cons_of_mem _ hl2))]
      exact lookupSec_odInsertReset_other m k h hk

theorem lookupSec_extractLoop_self (h : String) :
    ∀ (lines : List String) (m : List (String × String)) (v : String),
      lookupSec h m = some v → (∀ l ∈ lines, headingOf l ≠ some h) →
      lookupSec h (extractLoop lines h m) = some (v ++ tailBody lines) := by
  intro lines
  induction lines with
  | nil =>
    intro m v hv _
    rw [show extractLoop [] h m = m from rfl, hv,
      show tailBody [] = "" from rfl, strAppend_empty]
  | cons line rest ih =>
    intro m v hv hheads
    rcases hl : headingOf line with _ | k
    · have hstep : extractLoop (line :: rest) h m =
          extractLoop rest h (odAppend m h ("\n" ++ pyStrip line)) := by
        conv_lhs => rw [extractLoop]
        rw [hl]
      rw [hstep]
      have hv' : lookupSec h (odAppend m h ("\n" ++ pyStrip line)) =
          some (v ++ ("\n" ++ pyStrip line)) := by
        rw [lookupSec_odAppend_self, hv]
        rfl
      rw [ih _ _ hv' (fun l hl2 => hheads l (List.mem_cons_of_mem _ hl2))]
      refine congrArg some ?_
      apply strExt
      have htb : (tailBody (line :: rest)).data =
          ('\n' :: (pyStrip line).data) ++ (tailBody rest).data := by
        unfold tailBody
        rw [List.takeWhile_cons_of_pos (by simp [hl]), List.map_cons, List.flatten_cons]
      simp only [strAppend_data]
      rw [htb]
      simp [List.append_assoc]
    · have hk : k ≠ h := by
        intro he
        exact hheads line (List.mem_cons_self _ _) (by rw [hl, he])
      have hstep : extractLoop (line :: rest) h m =
          extractLoop rest k (odInsertReset m k) := by
        conv_lhs => rw [extractLoop]
        rw [hl]
      rw [hstep,
        lookupSec_extractLoop_other h rest k _ hk
          (fun l hl2 => hheads l (List.mem_cons_of_mem _ hl2)),
        lookupSec_odInsertReset_other m k h hk, hv]
      refine congrArg some ?_
      have htb : tailBody (line :: rest) = "" := by
        unfold tailBody
        rw [List.takeWhile_cons_of_neg (by simp [hl])]
        rfl
      rw [htb, strAppend_empty]

theorem extractLoop_append (B : List String) :
    ∀ (A : List String) (last : String) (m : List (String × String)),
      extractLoop (A ++ B) last m =
        extractLoop B (currentKey A last) (extractLoop A last m) := by
  intro A
  induction A with
  | nil =>
    intro last m
    rfl
  | cons line A ih =>
    intro last m
    rcases hl : headingOf line with _ | k
    · have h1 : extractLoop ((line :: A) ++ B) last m =
          extractLoop (A ++ B) last (odAppend m last ("\n" ++ pyStrip line)) := by
        rw [List.cons_append]
        conv_lhs => rw [extractLoop]
        rw [hl]
      have h2 : extractLoop (line :: A) last m =
          extractLoop A last (odAppend m last ("\n" ++ pyStrip line)) := by
        conv_lhs => rw [extractLoop]
        rw [hl]
      have h3 : currentKey (line :: A) last = currentKey A last := by
        unfold currentKey
        rw [List.foldl_cons]
        show A.foldl _ (match headingOf line with
          | some k => k
          | none => last) = _
        rw [hl]
      rw [h1, ih, h2, h3]
    · have h1 : extractLoop ((line :: A) ++ B) last m =
          extractLoop (A ++ B) k (odInsertReset m k) := by
        rw [List.cons_append]
        conv_lhs => rw [extractLoop]
        rw [hl]
      have h2 : extractLoop (line :: A) last m =
          extractLoop A k (odInsertReset m k) := by
        conv_lhs => rw [extractLoop]
        rw [hl]
      have h3 : currentKey (line :: A) last = currentKey A k := by
        unfold currentKey
        rw [List.foldl_cons]
        show A.foldl _ (match headingOf line with
          | some k => k
          | none => last) = _
        rw [hl]
      rw [h1, ih, h2, h3]

theorem lookupSec_mapStrip (h : String) :
    ∀ m : List (String × String),
      lookupSec h (m.map (fun p => (p.1, pyStrip p.2))) = (lookupSec h m).map pyStrip := by
  intro m
  induction m with
  | nil => rfl
  | cons q m ih =>
    rw [List.map_cons]
    by_cases hq : (q.1 == h) = true
    · unfold lookupSec
      rw [findP_cons_pos (fun p => p.1 == h) (q.1, pyStrip q.2) _ hq,
        findP_cons_pos (fun p => p.1 == h) q _ hq]
      rfl
    · unfold lookupSec
      rw [findP_cons_neg (fun p => p.1 == h) (q.1, pyStrip q.2) _ (by simpa using hq),
        findP_cons_neg (fun p => p.1 == h) q _ (by simpa using hq)]
      exact ih

theorem find?_filter_nonempty_key (h : String) (hne : h ≠ "") :
    ∀ m : List (String × String),
      (m.filter (fun p => p.1 != "")).find? (fun p => p.1 == h) =
        m.find? (fun p => p.1 == h) := by
  intro m
  induction m with
  | nil => rfl
  | cons q m ih =>
    simp only [List.filter_cons]
    by_cases hq : (q.1 == h) = true
    · have hqne : (q.1 != "") = true := by
        have : q.1 = h := eq_of_beq hq
        simp [this, hne]
      rw [if_pos hqne,
        findP_cons_pos (fun p => p.1 == h) q _ hq,
        findP_cons_pos (fun p => p.1 == h) q _ hq]
    · by_cases hqe : (q.1 != "") = true
      · rw [if_pos hqe,
          findP_cons_neg (fun p => p.1 == h) q _ (by simpa using hq),
          findP_cons_neg (fun p => p.1 == h) q _ (by simpa using hq)]
        exact ih
      · rw [if_neg (by simpa using hqe),
          findP_cons_neg (fun p => p.1 == h) q _ (by simpa using hq)]
        exact ih

theorem lookupSec_moveEmpty (h : String) (hne : h ≠ "") (m : List (String × String)) :
    lookupSec h (m.filter (fun p => p.1 != "") ++ m.filter (fun p => p.1 == "")) =
      lookupSec h m := by
  unfold lookupSec
  rw [List.find?_append, find?_filter_nonempty_key h hne]
  have h2 : (m.filter (fun p => p.1 == "")).find? (fun p => p.1 == h) = none := by
    rw [List.find?_eq_none]
    intro p hp hpk
    have h1 : p.1 = "" := eq_of_beq (List.mem_filter.mp hp).2
    have h3 : p.1 = h := eq_of_beq hpk
    exact hne (h3 ▸ h1 : h = "")
  rw [h2, Option.or_none]

end Harvest

namespace Harvest

/-- C10 (amended): when a nonempty heading text occurs on more than one
heading line, `extract_sections` keeps a single key for it, the key order
is the first-occurrence order of the nonempty headings (empty key moved to
the end), and each repeated occurrence resets the accumulated body, so the
final body holds only the (trimmed) lines following the last occurrence of
the heading, up to the next heading line. -/
theorem duplicate_heading_spec (doc h H : String) (A B : List String)
    (hne : h ≠ "")
    (hsplit : pyLines doc = A ++ H :: B)
    (hH : headingOf H = some h)
    (_hdup : ∃ l ∈ A, headingOf l = some h)
    (hafter : ∀ l ∈ B, headingOf l ≠ some h) :
    keysOf (extract_sections doc) =
      firstDedup (((pyLines doc).filterMap headingOf).filter (fun x => x != "")) ++ [""] ∧
    (keysOf (extract_sections doc)).count h = 1 ∧
    lookupSec h (extract_sections doc) = some (pyStrip (tailBody B)) := by
  refine ⟨keysOf_extract_sections doc, ?_, ?_⟩
  · rw [keysOf_extract_sections doc, List.count_append]
    have hcount1 :
        (firstDedup (((pyLines doc).filterMap headingOf).filter (fun x => x != ""))).count h =
          1 := by
      apply List.count_eq_one_of_mem
      · exact nodup_foldl_insOne _ _ List.nodup_nil
      · refine mem_foldl_insOne _ _ _ (Or.inr ?_)
        refine List.mem_filter.mpr ⟨?_, by simp [hne]⟩
        refine List.mem_filterMap.mpr ⟨H, ?_, hH⟩
        rw [hsplit]
        exact List.mem_append_right _ (List.mem_cons_self _ _)
    have hcount2 : ([""] : List String).count h = 0 := by
      rw [List.count_eq_zero]
      simp [hne]
    rw [hcount1, hcount2]
  · show lookupSec h
        (((extractLoop (pyLines doc) "" [("", "")]).map (fun p => (p.1, pyStrip p.2))).filter
            (fun p => p.1 != "") ++
          ((extractLoop (pyLines doc) "" [("", "")]).map (fun p => (p.1, pyStrip p.2))).filter
            (fun p => p.1 == "")) = some (pyStrip (tailBody B))
    rw [lookupSec_moveEmpty h hne, lookupSec_mapStrip]
    rw [hsplit, extractLoop_append (H :: B) A "" [("", "")]]
    have hstep : extractLoop (H :: B) (currentKey A "") (extractLoop A "" [("", "")]) =
        extractLoop B h (odInsertReset (extractLoop A "" [("", "")]) h) := by
      conv_lhs => rw [extractLoop]
      rw [hH]
    rw [hstep,
      lookupSec_extractLoop_self h B _ "" (lookupSec_odInsertReset_self _ h) hafter,
      empty_strAppend]
    rfl

/-- C10 (counterexample): the heading text `""` (from the line `# #`)
occurs on two heading lines, the first of them before the `A` heading, yet
the empty key is moved to the end of the map rather than sitting at its
first occurrence. -/
theorem duplicate_empty_heading_cex :
    extract_sections "# #\nx\n## A\ny\n# #\nz" = [("A", "y"), ("", "z")] ∧
    (pyLines "# #\nx\n## A\ny\n# #\nz").filterMap headingOf = ["", "A", ""] ∧
    ("A" : String) ≠ "" := by
  refine ⟨by decide, by decide, by decide⟩

/-- C10 witness at the document `"# T\nx\n# T\ny"`. -/
theorem duplicate_heading_spec_witness :
    keysOf (extract_sections "# T\nx\n# T\ny") =
      firstDedup (((pyLines "# T\nx\n# T\ny").filterMap headingOf).filter
        (fun x => x != "")) ++ [""] ∧
    (keysOf (extract_sections "# T\nx\n# T\ny")).count "T" = 1 ∧
    lookupSec "T" (extract_sections "# T\nx\n# T\ny") = some (pyStrip (tailBody ["y"])) :=
  duplicate_heading_spec "# T\nx\n# T\ny" "T" "# T" ["# T", "x"] ["y"]
    (by decide) (by decide) (by decide) (by decide) (by decide)

end Harvest
